import Mathlib

/-!
A shallow embedding, in Lean 4, of the region-tracking core of the
paste-review-reminder extension: the `RegionManager` interval store
(`src/regionManager.ts`), the `ChangeTracker` classifier
(`src/changeTracker.ts`), the contextual-fingerprint reconciler of the
full-file paste path, and the `SaveManager` persistence gate
(`src/saveManager.ts` / the SaveManager in `changeDetector.ts`).

Modelling conventions, used throughout:
* Line numbers are `Int` (JavaScript numbers used only at integral values;
  the code performs subtraction that may go negative, so `Int` is the
  faithful carrier).
* An inserted text is carried as the list of its lines, i.e. the value of
  `text.split("\n")` in the source.  That list is never `[]` in JavaScript
  (a split always has at least one element); the empty string corresponds
  to `[""]`.  `text.length` is recovered by `textLen` below, and
  `text.split("\n").length` is the length of the list.
* A JavaScript `Set` is carried as a duplicate-free list in insertion
  order; `setAdd` mirrors `Set.add`, list length mirrors `Set.size`.
* Floating-point arithmetic of the source (the typing-speed computation,
  the 80% coverage test) is carried out in `ℚ`; every comparison that the
  claims exercise is far from the rounding boundary, so the rational value
  is the value the float computation denotes.
* Region ids `region-${nextId++}` are carried as the `Nat` counter value;
  the string wrapper is injective in the counter.
-/

/-- A region of not-yet-reviewed lines (interface `Region` in
`src/types.ts`): an inclusive line range with a stable identity. -/
structure Region where
  id : Nat
  startLine : Int
  endLine : Int
  deriving DecidableEq, Repr

/-- The line projection of a `vscode.Range` as the region code uses it:
only `range.start.line` and `range.end.line` are ever read. -/
structure LineRange where
  startLine : Int
  endLine : Int
  deriving DecidableEq, Repr

/-- A well-formed editor range: lines are nonnegative and ordered,
which every range delivered by the host editor satisfies. -/
def LineRange.WF (rg : LineRange) : Prop :=
  0 ≤ rg.startLine ∧ rg.startLine ≤ rg.endLine

instance (rg : LineRange) : Decidable rg.WF := by
  unfold LineRange.WF; infer_instance

/-- Two regions occupy disjoint line sets (no shared line numbers). -/
def Region.Disjoint (r s : Region) : Prop :=
  r.endLine < s.startLine ∨ s.endLine < r.startLine

instance (r s : Region) : Decidable (r.Disjoint s) := by
  unfold Region.Disjoint; infer_instance

/-- A region overlaps a touched line range. -/
def Region.Overlaps (r : Region) (rg : LineRange) : Prop :=
  ¬(rg.endLine < r.startLine ∨ rg.startLine > r.endLine)

instance (r : Region) (rg : LineRange) : Decidable (r.Overlaps rg) := by
  unfold Region.Overlaps; infer_instance

/-- The per-document state of the `RegionManager`: the region list under
the document's key, plus the id counter `nextId`. -/
structure RMState where
  regions : List Region
  nextId : Nat
  deriving DecidableEq, Repr

namespace RegionManager

/-- `RegionManager.addRegion`: append a freshly numbered region. -/
def addRegion (rm : RMState) (startLine endLine : Int) : RMState :=
  { regions := rm.regions ++ [⟨rm.nextId, startLine, endLine⟩],
    nextId := rm.nextId + 1 }

/-- `RegionManager.removeRangeFromRegion`: remove a touched line range from
one region, yielding 0, 1 or 2 surviving pieces, each freshly numbered.
Returns `(removed, pieces, nextId)` exactly as the source returns
`{ removed, newRegions }` while bumping `this.nextId`. -/
def removeRangeFromRegion (nextId : Nat) (region : Region) (rg : LineRange) :
    Bool × List Region × Nat :=
  if rg.endLine < region.startLine ∨ rg.startLine > region.endLine then
    (false, [], nextId)
  else
    let removeStart := max rg.startLine region.startLine
    let removeEnd := min rg.endLine region.endLine
    let p1 : List Region × Nat :=
      if region.startLine < removeStart then
        ([⟨nextId, region.startLine, removeStart - 1⟩], nextId + 1)
      else ([], nextId)
    let p2 : List Region × Nat :=
      if region.endLine > removeEnd then
        (p1.1 ++ [⟨p1.2, removeEnd + 1, region.endLine⟩], p1.2 + 1)
      else p1
    (true, p2.1, p2.2)

/-- The body of the loop of `removeLinesFromRegions`: rebuild the region
list, keeping untouched regions and replacing touched ones by their
surviving pieces, threading `nextId` and the `modified` flag. -/
def removeLinesGo (rg : LineRange) :
    List Region → Nat → List Region × Nat × Bool
  | [], nid => ([], nid, false)
  | r :: rs, nid =>
    let res := removeRangeFromRegion nid r rg
    let rest := removeLinesGo rg rs res.2.2
    if res.1 then (res.2.1 ++ rest.1, rest.2.1, true)
    else (r :: rest.1, rest.2.1, rest.2.2)

/-- `RegionManager.removeLinesFromRegions`: remove a touched line range
from every region of the document; returns the new state and whether any
region was modified.  (The source's early return on an absent or empty
collection coincides with processing the empty list.) -/
def removeLinesFromRegions (rm : RMState) (rg : LineRange) : RMState × Bool :=
  let res := removeLinesGo rg rm.regions rm.nextId
  ({ regions := res.1, nextId := res.2.1 }, res.2.2)

/-- The per-region update of `updateRegionsAfterEdit`: translate a region
strictly after the edit, or extend a region spanning the change point. -/
def shiftRegion (lineDelta changeEndLine : Int) (r : Region) : Region :=
  if r.startLine > changeEndLine then
    ⟨r.id, r.startLine + lineDelta, r.endLine + lineDelta⟩
  else if r.endLine > changeEndLine then
    ⟨r.id, r.startLine, r.endLine + lineDelta⟩
  else r

/-- The line delta of an edit as `updateRegionsAfterEdit` computes it:
inserted line breaks (`text.split("\n").length - 1`) minus replaced line
breaks (`range.end.line - range.start.line`). -/
def lineDeltaOf (rg : LineRange) (text : List String) : Int :=
  ((text.length : Int) - 1) - (rg.endLine - rg.startLine)

/-- `RegionManager.updateRegionsAfterEdit`: when an edit changes the line
count, shift every region after the change (the source mutates the list in
place; the map preserves order and length). -/
def updateRegionsAfterEdit (rm : RMState) (rg : LineRange)
    (text : List String) : RMState :=
  let lineDelta := lineDeltaOf rg text
  if lineDelta = 0 then rm
  else { rm with
         regions := rm.regions.map (shiftRegion lineDelta rg.endLine) }

/-- `RegionManager.setRegionsForDocument` (named
`restoreRegionsForDocument` at its persistence-restore call site):
wholesale replacement of the document's region list. -/
def setRegionsForDocument (rm : RMState) (regions : List Region) : RMState :=
  { rm with regions := regions }

/-- `RegionManager.clearDocument`: drop the document's region list. -/
def clearDocument (rm : RMState) : RMState :=
  { rm with regions := [] }

end RegionManager

/-- The number of characters of an inserted text carried as its
`"\n"`-split: the line lengths plus one character per line break
(`change.text.length` in the source). -/
def textLen (text : List String) : Nat :=
  (text.map String.length).sum + (text.length - 1)

/-- A single `contentChange` of a text-document change event, with the
inserted text already split on `"\n"`. -/
structure Chg where
  range : LineRange
  text : List String
  deriving DecidableEq, Repr

/-- The contiguous run of lines spanned by an insertion, from `startLine`
to `endLine` inclusive, as the source's `for` loops build it. -/
def lineRun (startLine : Int) (count : Nat) : List Int :=
  (List.range (count + 1)).map (fun k : Nat => startLine + (k : Int))

/-- `Set.add` of a JavaScript `Set`, on the duplicate-free
insertion-ordered list that carries it. -/
def setAdd {α : Type} [DecidableEq α] (s : List α) (x : α) : List α :=
  if x ∈ s then s else s ++ [x]

/-- Fold `setAdd` over a list of elements (a `for` loop of `Set.add`). -/
def setAddAll {α : Type} [DecidableEq α] (s : List α) (xs : List α) :
    List α :=
  xs.foldl setAdd s

/-- Configuration values read by the classifier
(`pasteReviewReminder.*`, with their defaults). -/
structure Config where
  minimumPasteLines : Nat
  minimumStreamingLines : Nat
  typingSpeedThreshold : ℚ
  deriving Repr

/-- The default configuration: `minimumPasteLines` 20,
`minimumStreamingLines` 20, `typingSpeedThreshold` 110. -/
def defaultConfig : Config := ⟨20, 20, 110⟩

/-- Per-document tracking state of the classifier
(`ChangeTrackingState` in `src/types.ts`); `timerPending` models the
presence of `timeoutId`, times are in milliseconds. -/
structure TrackingState where
  isTracking : Bool
  startTime : Nat
  totalCharacters : Nat
  affectedLines : List Int
  lastChangeTime : Nat
  timerPending : Bool
  deriving DecidableEq, Repr

namespace ChangeTracker

/-- `ChangeTracker.isPaste` of `src/changeTracker.ts`:
`change.text.split("\n").length - 1 > minimumPasteLines`. -/
def isPaste (cfg : Config) (c : Chg) : Bool :=
  c.text.length - 1 > cfg.minimumPasteLines

/-- `ChangeTracker.isPaste` of the later `changeTracker.ts` generation
(the one with the reviewed-paste check):
`change.text.split("\n").length >= minimumPasteLines`. -/
def isPasteV2 (cfg : Config) (c : Chg) : Bool :=
  c.text.length ≥ cfg.minimumPasteLines

/-- The run-grouping loop of `createRegionsFromLines`, walking the sorted
line list with the current run `[regionStart, regionEnd]` and emitting a
run whenever the next line is not consecutive. -/
def collectRuns (regionStart regionEnd : Int) :
    List Int → List (Int × Int)
  | [] => [(regionStart, regionEnd)]
  | l :: ls =>
    if l = regionEnd + 1 then collectRuns regionStart l ls
    else (regionStart, regionEnd) :: collectRuns l l ls

/-- Group a sorted duplicate-free line list into contiguous runs. -/
def runsOf : List Int → List (Int × Int)
  | [] => []
  | l :: ls => collectRuns l l ls

/-- The loop body of `createRegionsFromLines`: add one grouped run when
its size passes the minimum-size test.  `strict = true` is the
`regionSize > minRegionSize` test of `src/changeTracker.ts`;
`strict = false` is the `regionSize >= minRegionSize` test of the later
generation. -/
def addRunIfMeets (strict : Bool) (minRegionSize : Nat) (acc : RMState)
    (run : Int × Int) : RMState :=
  let regionSize := run.2 - run.1 + 1
  if (if strict then regionSize > (minRegionSize : Int)
      else regionSize ≥ (minRegionSize : Int)) then
    RegionManager.addRegion acc run.1 run.2
  else acc

/-- `ChangeTracker.createRegionsFromLines`: sort the affected-line set,
group consecutive lines into runs, and add each run whose size passes the
minimum-size test. -/
def createRegionsFromLines (strict : Bool) (rm : RMState)
    (lines : List Int) (minRegionSize : Nat) : RMState :=
  if lines.length = 0 then rm
  else
    let sortedLines := lines.insertionSort (· ≤ ·)
    let runs := runsOf sortedLines
    runs.foldl (addRunIfMeets strict minRegionSize) rm

/-- `ChangeTracker.handlePaste` of `src/changeTracker.ts`: flag the
contiguous range spanned by the inserted text, immediately. -/
def handlePaste (cfg : Config) (rm : RMState) (c : Chg) : RMState :=
  let startLine := c.range.startLine
  let lineCount := c.text.length - 1
  let lines := lineRun startLine lineCount
  createRegionsFromLines true rm lines cfg.minimumPasteLines

/-- `ChangeTracker.trackForFastTyping`: start or continue the per-document
window, accumulate characters and affected lines, stamp the event time and
re-arm the debounce timer. -/
def trackForFastTyping (now : Nat) (st : Option TrackingState) (c : Chg) :
    TrackingState :=
  let s :=
    match st with
    | some s => if s.isTracking then s else
        ⟨true, now, 0, [], now, false⟩
    | none => ⟨true, now, 0, [], now, false⟩
  let startLine := c.range.startLine
  let endLine := c.range.startLine + ((c.text.length : Int) - 1)
  { s with
    totalCharacters := s.totalCharacters + textLen c.text,
    lastChangeTime := now,
    affectedLines :=
      setAddAll s.affectedLines (lineRun startLine (endLine - startLine).toNat),
    timerPending := true }

/-- `ChangeTracker.endTracking`: when the debounce window closes, compute
`duration` in seconds and `speed = duration > 0 ? chars / duration : 0`,
emit the affected-line set when both thresholds are strictly exceeded,
then reset the window.  Returns the updated state and the created
regions' store. -/
def endTracking (cfg : Config) (st : Option TrackingState) (rm : RMState) :
    Option TrackingState × RMState :=
  match st with
  | none => (none, rm)
  | some s =>
    if ¬s.isTracking then (some s, rm)
    else
      let duration : ℚ := ((s.lastChangeTime : ℚ) - (s.startTime : ℚ)) / 1000
      let speed : ℚ := if duration > 0 then (s.totalCharacters : ℚ) / duration else 0
      let lineCount := s.affectedLines.length
      let rm' :=
        if speed > cfg.typingSpeedThreshold ∧
            lineCount > cfg.minimumStreamingLines then
          createRegionsFromLines true rm s.affectedLines
            cfg.minimumStreamingLines
        else rm
      (some { s with isTracking := false, totalCharacters := 0,
                     affectedLines := [], timerPending := false }, rm')

/-- One iteration of the `processChange` loop of `src/changeTracker.ts`
over a single `contentChange`: skip pure deletions, take the paste path
for large single insertions, otherwise accumulate for fast-typing
detection. -/
def processOneChange (cfg : Config) (now : Nat)
    (st : Option TrackingState) (rm : RMState) (c : Chg) :
    Option TrackingState × RMState :=
  if c.text = [""] then (st, rm)
  else if isPaste cfg c then (st, handlePaste cfg rm c)
  else (some (trackForFastTyping now st c), rm)

/-- `ChangeTracker.processChange`: iterate over the event's
`contentChanges`. -/
def processChange (cfg : Config) (now : Nat)
    (st : Option TrackingState) (rm : RMState) (cs : List Chg) :
    Option TrackingState × RMState :=
  cs.foldl (fun acc c => processOneChange cfg now acc.1 acc.2 c) (st, rm)

end ChangeTracker

/-- `getContextualKey` of the later `changeTracker.ts` generation: the
line's own text, concatenated with the character counts of up to five
lines of context above and below, joined with `"\n"`.  (Out-of-range
indices never occur at call sites; `getD` totalises with `""`.) -/
def getContextualKey (lines : List String) (index : Nat) : String :=
  let lineContent := lines.getD index ""
  let contextWindow := 5
  let aboveStart := index - contextWindow
  let aboveLines := (lines.drop aboveStart).take (index - aboveStart)
  let aboveContext := String.intercalate "\n" aboveLines
  let belowEnd := min lines.length (index + 1 + contextWindow)
  let belowLines := (lines.drop (index + 1)).take (belowEnd - (index + 1))
  let belowContext := String.intercalate "\n" belowLines
  lineContent ++ "-" ++ toString aboveContext.length ++ "-" ++
    toString belowContext.length

/-- Modelled from the spec: the feature flag
`ENABLE_REVIEWED_PASTE_CHECK`, imported by `changeTracker.ts` from
`extension-helpers/eventHandlers.ts` but not defined in any source file of
the repository.  Section 4.2/4.3 of the specification state that a
whole-document replacement is routed through the fingerprint reconciler,
so the flag is on. -/
def ENABLE_REVIEWED_PASTE_CHECK : Bool := true

namespace ChangeTracker

/-- `ChangeTracker.isFullFilePaste`: the paste counts as a full-file
replacement when the pasted line count exceeds 80% of the resulting
document's total line count (`0.8` carried as the rational it denotes;
`totalDocumentLines || 1` guards the empty document). -/
def isFullFilePaste (totalDocumentLines : Nat) (c : Chg) : Bool :=
  let pastedLines := c.text.length
  let denom : ℚ := if totalDocumentLines = 0 then 1 else totalDocumentLines
  (pastedLines : ℚ) / denom > 8 / 10

/-- Step 1 of the reviewed-paste check in `handlePaste`: the set of
contextual keys of every old line lying outside every old region. -/
def reviewedContentKeys (oldDocumentLines : List String)
    (oldRegions : List Region) : List String :=
  (List.range oldDocumentLines.length).foldl
    (fun keys (i : Nat) =>
      if oldRegions.any (fun region =>
          decide ((i : Int) ≥ region.startLine) &&
          decide ((i : Int) ≤ region.endLine)) then keys
      else setAdd keys (getContextualKey oldDocumentLines i))
    []

/-- Step 2 of the reviewed-paste check: the pasted lines whose contextual
key is not among the reviewed keys, as absolute line numbers. -/
def linesToHighlight (reviewedKeys : List String)
    (pastedContentLines : List String) (startLineOfPaste : Int) :
    List Int :=
  (List.range pastedContentLines.length).foldl
    (fun lines (i : Nat) =>
      if getContextualKey pastedContentLines i ∈ reviewedKeys then lines
      else setAdd lines (startLineOfPaste + (i : Int)))
    []

/-- `ChangeTracker.handlePaste` of the later generation: route a full-file
replacement through the contextual-fingerprint check (steps 1 to 3);
otherwise fall back to flagging the contiguous pasted range.
`totalDocumentLines` is `document.lineCount` after the change. -/
def handlePasteV2 (cfg : Config) (totalDocumentLines : Nat) (rm : RMState)
    (c : Chg) (oldText : Option (List String))
    (oldRegions : Option (List Region)) : RMState :=
  let fallback :=
    createRegionsFromLines false rm
      (lineRun c.range.startLine (c.text.length - 1)) cfg.minimumPasteLines
  match oldText, oldRegions with
  | some oldDocumentLines, some oldRegs =>
    if ENABLE_REVIEWED_PASTE_CHECK && isFullFilePaste totalDocumentLines c then
      let reviewedKeys := reviewedContentKeys oldDocumentLines oldRegs
      let toHighlight := linesToHighlight reviewedKeys c.text c.range.startLine
      if toHighlight.length > 0 then
        createRegionsFromLines false rm toHighlight 1
      else rm
    else fallback
  | _, _ => fallback

/-- One iteration of the `processChange` loop of the later generation:
as before, but the paste path is `isPasteV2`/`handlePasteV2`, fed the
snapshots taken before the change was applied. -/
def processOneChangeV2 (cfg : Config) (now : Nat)
    (totalDocumentLines : Nat) (st : Option TrackingState) (rm : RMState)
    (c : Chg) (oldText : Option (List String))
    (oldRegions : Option (List Region)) :
    Option TrackingState × RMState :=
  if c.text = [""] then (st, rm)
  else if isPasteV2 cfg c then
    (st, handlePasteV2 cfg totalDocumentLines rm c oldText oldRegions)
  else (some (trackForFastTyping now st c), rm)

end ChangeTracker

/-- A manifest entry (`SavedFileRegions` in the workspace-relative
`SaveManager`): relative path, content digest, region list. -/
structure ManifestEntry where
  documentPath : String
  checksum : String
  regions : List Region
  deriving DecidableEq, Repr

/-- The manifest (`RegionManifest`): one entry per tracked file. -/
structure Manifest where
  files : List ManifestEntry
  deriving DecidableEq, Repr

namespace SaveManager

/-- `SaveManager.getRegions`: the saved regions of a path, `[]` when the
path has no entry. -/
def getRegions (m : Manifest) (path : String) : List Region :=
  match m.files.find? (fun f => f.documentPath == path) with
  | some f => f.regions
  | none => []

/-- `SaveManager.hasMatchingChecksum`: whether the stored digest of the
path equals the digest of the given content.  The SHA-256 hash is carried
as an opaque parameter `checksumFn`. -/
def hasMatchingChecksum (checksumFn : String → String) (m : Manifest)
    (path content : String) : Bool :=
  match m.files.find? (fun f => f.documentPath == path) with
  | none => false
  | some f => f.checksum = checksumFn content

/-- `SaveManager.saveFileRegions` of the workspace-relative generation:
replace the entry for the path with the current digest and regions, and
remove the entry entirely when the region list is empty (or when the file
no longer exists on disk).  The caller guarantees the path is inside the
workspace (the `uriToRelativePath` null case returns unchanged upstream). -/
def saveFileRegions (checksumFn : String → String) (m : Manifest)
    (path : String) (fileExists : Bool) (content : String)
    (regions : List Region) : Manifest :=
  if !fileExists then
    ⟨m.files.filter (fun f => f.documentPath ≠ path)⟩
  else
    let checksum := checksumFn content
    let otherFiles := m.files.filter (fun f => f.documentPath ≠ path)
    if regions.length > 0 then
      ⟨otherFiles ++ [⟨path, checksum, regions⟩]⟩
    else
      ⟨otherFiles⟩

end SaveManager

/-- `handleDocumentOpen` of `extension-helpers/eventHandlers.ts`, with the
decoration side effects dropped: when the manifest holds a non-empty entry
for the opened document, restore it verbatim on digest match, otherwise
clear the document's regions and schedule an immediate save.  The returned
flag is whether `saveScheduler.scheduleSave(uri, true)` was called. -/
def handleDocumentOpen (checksumFn : String → String) (m : Manifest)
    (path content : String) (rm : RMState) : RMState × Bool :=
  let savedRegions := SaveManager.getRegions m path
  if savedRegions.isEmpty then (rm, false)
  else if SaveManager.hasMatchingChecksum checksumFn m path content then
    (RegionManager.setRegionsForDocument rm savedRegions, false)
  else
    (RegionManager.clearDocument rm, true)

/-- `p` occupies lines inside `r`. -/
def Region.Within (p r : Region) : Prop :=
  r.startLine ≤ p.startLine ∧ p.endLine ≤ r.endLine

/-- The contiguous line span flagged by the direct-paste path: from the
change's start line over the inserted line breaks. -/
def spanOf (c : Chg) : LineRange :=
  ⟨c.range.startLine, c.range.startLine + ((c.text.length - 1 : Nat) : Int)⟩

/-- Every region of the list is a well-formed interval
(`startLine ≤ endLine`). -/
def RegionsWF (l : List Region) : Prop :=
  ∀ r ∈ l, r.startLine ≤ r.endLine

/-- The regions of the list are pairwise non-overlapping. -/
def RegionsDisjoint (l : List Region) : Prop :=
  l.Pairwise Region.Disjoint

/-- No region of the list shares a line with the range. -/
def NoOverlap (l : List Region) (rg : LineRange) : Prop :=
  ∀ r ∈ l, ¬r.Overlaps rg

/-- An observable event of the single-document system: a text change
(probed by the handler pipeline and the classifier), the firing of the
classifier's debounce timer, a cursor selection (dismissal), or a
persistence-gate restore. -/
inductive Ev where
  | change (now : Nat) (c : Chg)
  | timerFire
  | select (rg : LineRange)
  | restore (regions : List Region)
  deriving DecidableEq, Repr

/-- What a well-behaved host guarantees per event: editor ranges are
well-formed, inserted texts exist (a JavaScript split is never empty), and
a restore reinstalls a well-formed saved set (regions saved by the system
itself). -/
def EvWF : Ev → Prop
  | .change _ c => c.range.WF ∧ c.text ≠ []
  | .timerFire => True
  | .select rg => rg.WF
  | .restore regions => RegionsWF regions ∧ RegionsDisjoint regions

instance (l : List Region) : Decidable (RegionsWF l) := by
  unfold RegionsWF; infer_instance

instance (l : List Region) : Decidable (RegionsDisjoint l) := by
  unfold RegionsDisjoint; exact List.instDecidablePairwise l

instance : DecidablePred EvWF := by
  intro e
  cases e <;> unfold EvWF <;> infer_instance

/-- The joint state of the region store and the classifier for one
document. -/
structure Sys where
  rm : RMState
  tracking : Option TrackingState
  deriving DecidableEq, Repr

/-- One event of the system, as `handleTextDocumentChange`,
`handleSelectionChange`, the debounce timeout and the restore path of
`handleDocumentOpen` process it: a change first removes touched lines from
regions, then shifts regions past the edit, then runs the classifier;
the timer firing runs `endTracking`; a selection removes touched lines; a
restore replaces the document's region list. -/
def stepEv (cfg : Config) (s : Sys) : Ev → Sys
  | .change now c =>
    let rm1 := (RegionManager.removeLinesFromRegions s.rm c.range).1
    let rm2 := RegionManager.updateRegionsAfterEdit rm1 c.range c.text
    let res := ChangeTracker.processOneChange cfg now s.tracking rm2 c
    ⟨res.2, res.1⟩
  | .timerFire =>
    let res := ChangeTracker.endTracking cfg s.tracking s.rm
    ⟨res.2, res.1⟩
  | .select rg =>
    ⟨(RegionManager.removeLinesFromRegions s.rm rg).1, s.tracking⟩
  | .restore regions =>
    ⟨RegionManager.setRegionsForDocument s.rm regions, s.tracking⟩

/-- Run an event sequence from a state. -/
def runEvents (cfg : Config) (s : Sys) (evs : List Ev) : Sys :=
  evs.foldl (stepEv cfg) s

/-- The initial state of a freshly opened document: no regions, no
tracking state. -/
def initSys : Sys := ⟨⟨[], 0⟩, none⟩

/-- Membership after a JavaScript-set `add`. -/
theorem mem_setAdd {α : Type} [DecidableEq α] {s : List α} {x y : α} :
    y ∈ setAdd s x ↔ y ∈ s ∨ y = x := by
  unfold setAdd
  split <;> simp_all

/-- Membership after adding many elements. -/
theorem mem_setAddAll {α : Type} [DecidableEq α] {s : List α} {xs : List α}
    {y : α} : y ∈ setAddAll s xs ↔ y ∈ s ∨ y ∈ xs := by
  unfold setAddAll
  induction xs generalizing s with
  | nil => simp
  | cons a l ih => simp [ih, mem_setAdd, or_assoc]

/-- Membership in a guarded accumulation loop (`if test then skip else
Set.add`), the common shape of `reviewedContentKeys` and
`linesToHighlight`. -/
theorem mem_foldl_guardedAdd {α β : Type} [DecidableEq β] (p : α → Prop)
    [DecidablePred p] (f : α → β) (l : List α) (init : List β) (y : β) :
    y ∈ l.foldl (fun s a => if p a then s else setAdd s (f a)) init ↔
      y ∈ init ∨ ∃ a ∈ l, ¬p a ∧ y = f a := by
  induction l generalizing init with
  | nil => simp
  | cons a l ih =>
    simp only [List.foldl_cons]
    by_cases hp : p a
    · rw [if_pos hp, ih]
      simp only [List.mem_cons]
      constructor
      · rintro (h | ⟨b, hb, hnp, rfl⟩)
        · exact Or.inl h
        · exact Or.inr ⟨b, Or.inr hb, hnp, rfl⟩
      · rintro (h | ⟨b, (rfl | hb), hnp, rfl⟩)
        · exact Or.inl h
        · exact absurd hp hnp
        · exact Or.inr ⟨b, hb, hnp, rfl⟩
    · rw [if_neg hp, ih]
      simp only [mem_setAdd, List.mem_cons]
      constructor
      · rintro ((h | rfl) | ⟨b, hb, hnp, rfl⟩)
        · exact Or.inl h
        · exact Or.inr ⟨a, Or.inl rfl, hp, rfl⟩
        · exact Or.inr ⟨b, Or.inr hb, hnp, rfl⟩
      · rintro (h | ⟨b, (rfl | hb), hnp, rfl⟩)
        · exact Or.inl (Or.inl h)
        · exact Or.inl (Or.inr rfl)
        · exact Or.inr ⟨b, hb, hnp, rfl⟩

/-- The single-line run. -/
theorem lineRun_zero (s : Int) : lineRun s 0 = [s] := by
  unfold lineRun
  simp [List.range_succ]

/-- Peeling the first line off a run. -/
theorem lineRun_succ (s : Int) (k : Nat) :
    lineRun s (k + 1) = s :: lineRun (s + 1) k := by
  unfold lineRun
  rw [List.range_succ_eq_map, List.map_cons, List.map_map]
  refine congrArg₂ _ (by simp) (List.map_congr_left ?_)
  intro j _
  simp only [Function.comp_apply]
  push_cast
  ring

/-- The length of a run. -/
theorem lineRun_length (s : Int) (k : Nat) : (lineRun s k).length = k + 1 := by
  unfold lineRun
  simp

/-- Membership in a run. -/
theorem mem_lineRun {s x : Int} {k : Nat} :
    x ∈ lineRun s k ↔ s ≤ x ∧ x ≤ s + k := by
  unfold lineRun
  simp only [List.mem_map, List.mem_range]
  constructor
  · rintro ⟨j, hj, rfl⟩
    omega
  · rintro ⟨h1, h2⟩
    refine ⟨(x - s).toNat, by omega, by omega⟩

/-- A run is sorted. -/
theorem lineRun_sorted (s : Int) (k : Nat) :
    List.Sorted (fun a b : Int => a ≤ b) (lineRun s k) := by
  induction k generalizing s with
  | zero => simp [lineRun_zero]
  | succ k ih =>
    rw [lineRun_succ, List.sorted_cons]
    refine ⟨fun x hx => ?_, ih (s + 1)⟩
    rw [mem_lineRun] at hx
    omega

/-- Every run the grouping loop emits is a well-formed interval. -/
theorem collectRuns_le (l : List Int) : ∀ a b : Int, a ≤ b →
    ∀ p ∈ ChangeTracker.collectRuns a b l, p.1 ≤ p.2 := by
  induction l with
  | nil =>
    intro a b hab p hp
    simp only [ChangeTracker.collectRuns, List.mem_singleton] at hp
    simp [hp, hab]
  | cons x ls ih =>
    intro a b hab p hp
    simp only [ChangeTracker.collectRuns] at hp
    split at hp
    · exact ih a x (by omega) p hp
    · rcases List.mem_cons.mp hp with rfl | hmem
      · exact hab
      · exact ih x x le_rfl p hmem

/-- Every run of a line list is a well-formed interval. -/
theorem runsOf_le (l : List Int) : ∀ p ∈ ChangeTracker.runsOf l, p.1 ≤ p.2 := by
  cases l with
  | nil => simp [ChangeTracker.runsOf]
  | cons x ls => exact collectRuns_le ls x x le_rfl

/-- The grouping loop swallows a consecutive tail whole. -/
theorem collectRuns_lineRun (k : Nat) : ∀ a b : Int,
    ChangeTracker.collectRuns a b (lineRun (b + 1) k) = [(a, b + 1 + k)] := by
  induction k with
  | zero =>
    intro a b
    simp [lineRun_zero, ChangeTracker.collectRuns]
  | succ k ih =>
    intro a b
    rw [lineRun_succ]
    simp only [ChangeTracker.collectRuns, if_pos rfl]
    have := ih a (b + 1)
    rw [show b + 1 + 1 = b + 1 + (1 : Int) from rfl] at this
    rw [this]
    norm_num
    ring

/-- The runs of one contiguous line run: a single interval. -/
theorem runsOf_lineRun (s : Int) (k : Nat) :
    ChangeTracker.runsOf (lineRun s k) = [(s, s + k)] := by
  cases k with
  | zero => simp [lineRun_zero, ChangeTracker.runsOf, ChangeTracker.collectRuns]
  | succ k =>
    rw [lineRun_succ]
    show ChangeTracker.collectRuns s s (lineRun (s + 1) k) = _
    rw [collectRuns_lineRun k s s]
    norm_num
    ring

/-- `createRegionsFromLines` on one contiguous run: a single region is
added exactly when the run passes the size test. -/
theorem createRegions_lineRun (strict : Bool) (rm : RMState) (s : Int)
    (k minSize : Nat) :
    ChangeTracker.createRegionsFromLines strict rm (lineRun s k) minSize =
      if (if strict then ((k : Int) + 1 > (minSize : Int))
          else ((k : Int) + 1 ≥ (minSize : Int))) then
        RegionManager.addRegion rm s (s + k)
      else rm := by
  unfold ChangeTracker.createRegionsFromLines
  rw [if_neg (by simp [lineRun_length])]
  simp only [List.Sorted.insertionSort_eq (lineRun_sorted s k), runsOf_lineRun,
    List.foldl_cons, List.foldl_nil]
  unfold ChangeTracker.addRunIfMeets
  have h1 : s + (k : Int) - s + 1 = (k : Int) + 1 := by ring
  simp only [h1]

/-- `addRegion` preserves interval well-formedness when the added bounds
are ordered. -/
theorem addRegion_WF (rm : RMState) (s e : Int) (h : RegionsWF rm.regions)
    (hse : s ≤ e) : RegionsWF (RegionManager.addRegion rm s e).regions := by
  intro r hr
  rcases List.mem_append.mp hr with hr | hr
  · exact h r hr
  · rcases List.mem_singleton.mp hr with rfl
    exact hse

/-- The run-adding fold of `createRegionsFromLines` preserves interval
well-formedness of the store. -/
theorem foldl_run_add_WF (strict : Bool) (minSize : Nat) :
    ∀ (runs : List (Int × Int)) (rm : RMState),
      (∀ p ∈ runs, p.1 ≤ p.2) → RegionsWF rm.regions →
      RegionsWF
        ((runs.foldl (ChangeTracker.addRunIfMeets strict minSize) rm).regions) := by
  intro runs
  induction runs with
  | nil => intro rm _ h; exact h
  | cons p ps ih =>
    intro rm hle h
    simp only [List.foldl_cons]
    refine ih _ (fun q hq => hle q (List.mem_cons_of_mem p hq)) ?_
    have hp := hle p (List.mem_cons_self p ps)
    simp only [ChangeTracker.addRunIfMeets]
    split <;> split <;>
      first
        | exact h
        | exact addRegion_WF rm p.1 p.2 h hp

/-- `createRegionsFromLines` preserves interval well-formedness, for any
affected-line set. -/
theorem createRegions_WF (strict : Bool) (rm : RMState) (lines : List Int)
    (minSize : Nat) (h : RegionsWF rm.regions) :
    RegionsWF
      ((ChangeTracker.createRegionsFromLines strict rm lines minSize).regions) := by
  unfold ChangeTracker.createRegionsFromLines
  split
  · exact h
  · exact foldl_run_add_WF strict minSize _ rm
      (runsOf_le (lines.insertionSort (· ≤ ·))) h

/-- Subintervals of disjoint regions are disjoint. -/
theorem Region.disjoint_of_within {p q r s : Region} (h : r.Disjoint s)
    (hp : p.Within r) (hq : q.Within s) : p.Disjoint q := by
  rcases hp with ⟨hp1, hp2⟩
  rcases hq with ⟨hq1, hq2⟩
  rcases h with h | h
  · exact Or.inl (by omega)
  · exact Or.inr (by omega)

/-- A region lies within itself. -/
theorem Region.within_rfl (r : Region) : r.Within r := ⟨le_rfl, le_rfl⟩

/-- A region the removal loop reports untouched does not overlap the
range. -/
theorem removeRange_untouched (nid : Nat) (r : Region) (rg : LineRange)
    (h : (RegionManager.removeRangeFromRegion nid r rg).1 = false) :
    ¬r.Overlaps rg := by
  unfold RegionManager.removeRangeFromRegion at h
  split at h
  · rename_i hc
    exact not_not_intro hc
  · simp at h

/-- Each surviving piece of a removal is a well-formed interval, lies
within the original region, avoids the removed range, and carries a fresh
id at or above the incoming counter. -/
theorem removeRange_pieces (nid : Nat) (r : Region) (rg : LineRange) :
    ∀ p ∈ (RegionManager.removeRangeFromRegion nid r rg).2.1,
      p.startLine ≤ p.endLine ∧ p.Within r ∧ ¬p.Overlaps rg ∧ nid ≤ p.id := by
  unfold RegionManager.removeRangeFromRegion
  split
  · simp
  · rename_i hov
    push_neg at hov
    intro p hp
    simp only at hp
    split at hp <;> split at hp <;>
      simp only [List.mem_append, List.mem_singleton, List.not_mem_nil,
        List.nil_append, false_or, or_false, List.mem_cons] at hp
    · rcases hp with rfl | rfl <;>
        · simp only [Region.Overlaps, Region.Within, not_not]
          omega
    · rcases hp with rfl
      simp only [Region.Overlaps, Region.Within, not_not]
      omega
    · rcases hp with rfl
      simp only [Region.Overlaps, Region.Within, not_not]
      omega

/-- The surviving pieces of one removal are pairwise disjoint. -/
theorem removeRange_pieces_pairwise (nid : Nat) (r : Region)
    (rg : LineRange) (hrg : rg.startLine ≤ rg.endLine) :
    ((RegionManager.removeRangeFromRegion nid r rg).2.1).Pairwise
      Region.Disjoint := by
  unfold RegionManager.removeRangeFromRegion
  split
  · simp
  · rename_i hov
    push_neg at hov
    simp only
    split <;> split
    · refine List.pairwise_append.mpr ⟨by simp, by simp, ?_⟩
      intro a ha b hb
      rcases List.mem_singleton.mp ha with rfl
      rcases List.mem_singleton.mp hb with rfl
      simp only [Region.Disjoint]
      omega
    · simp
    · simp
    · simp

/-- The removal loop, over the whole list: the output is well-formed,
avoids the removed range, consists of pieces of input regions, and is
pairwise disjoint when the input was. -/
theorem removeLinesGo_props (rg : LineRange) (hrg : rg.startLine ≤ rg.endLine) :
    ∀ (l : List Region) (nid : Nat), RegionsWF l →
      RegionsWF (RegionManager.removeLinesGo rg l nid).1 ∧
      NoOverlap (RegionManager.removeLinesGo rg l nid).1 rg ∧
      (∀ p ∈ (RegionManager.removeLinesGo rg l nid).1, ∃ r ∈ l, p.Within r) ∧
      (RegionsDisjoint l →
        RegionsDisjoint (RegionManager.removeLinesGo rg l nid).1) := by
  intro l
  induction l with
  | nil =>
    intro nid _
    refine ⟨by intro r hr; exact absurd hr (by simp [RegionManager.removeLinesGo]),
      by intro r hr; exact absurd hr (by simp [RegionManager.removeLinesGo]),
      by intro p hp; exact absurd hp (by simp [RegionManager.removeLinesGo]),
      fun _ => by simp [RegionManager.removeLinesGo, RegionsDisjoint]⟩
  | cons r rs ih =>
    intro nid hwf
    have hwfr : r.startLine ≤ r.endLine := hwf r (List.mem_cons_self r rs)
    have hwfrs : RegionsWF rs := fun q hq => hwf q (List.mem_cons_of_mem r hq)
    simp only [RegionManager.removeLinesGo]
    set res := RegionManager.removeRangeFromRegion nid r rg with hres
    obtain ⟨ih1, ih2, ih3, ih4⟩ := ih res.2.2 hwfrs
    split
    · rename_i hrem
      constructor
      · intro q hq
        rcases List.mem_append.mp hq with hq | hq
        · exact (removeRange_pieces nid r rg q hq).1
        · exact ih1 q hq
      constructor
      · intro q hq
        rcases List.mem_append.mp hq with hq | hq
        · exact (removeRange_pieces nid r rg q hq).2.2.1
        · exact ih2 q hq
      constructor
      · intro p hp
        rcases List.mem_append.mp hp with hp | hp
        · exact ⟨r, List.mem_cons_self r rs,
            (removeRange_pieces nid r rg p hp).2.1⟩
        · obtain ⟨r', hr', hw⟩ := ih3 p hp
          exact ⟨r', List.mem_cons_of_mem r hr', hw⟩
      · intro hdisj
        rcases List.pairwise_cons.mp hdisj with ⟨hhead, htail⟩
        refine List.pairwise_append.mpr
          ⟨removeRange_pieces_pairwise nid r rg hrg, ih4 htail, ?_⟩
        intro a ha b hb
        obtain ⟨r', hr', hw'⟩ := ih3 b hb
        exact Region.disjoint_of_within (hhead r' hr')
          (removeRange_pieces nid r rg a ha).2.1 hw'
    · rename_i hrem
      have hnov : ¬r.Overlaps rg := by
        apply removeRange_untouched nid r rg
        simpa using hrem
      constructor
      · intro q hq
        rcases List.mem_cons.mp hq with rfl | hq
        · exact hwfr
        · exact ih1 q hq
      constructor
      · intro q hq
        rcases List.mem_cons.mp hq with rfl | hq
        · exact hnov
        · exact ih2 q hq
      constructor
      · intro p hp
        rcases List.mem_cons.mp hp with rfl | hp
        · exact ⟨p, List.mem_cons_self p rs, Region.within_rfl p⟩
        · obtain ⟨r', hr', hw⟩ := ih3 p hp
          exact ⟨r', List.mem_cons_of_mem r hr', hw⟩
      · intro hdisj
        rcases List.pairwise_cons.mp hdisj with ⟨hhead, htail⟩
        refine List.pairwise_cons.mpr ⟨?_, ih4 htail⟩
        intro b hb
        obtain ⟨r', hr', hw'⟩ := ih3 b hb
        exact Region.disjoint_of_within (hhead r' hr') (Region.within_rfl r) hw'

/-- After overlap removal, the straddling branch of `shiftRegion` is dead:
a region that avoids the edited range is either translated whole (it lies
strictly after the change) or untouched. -/
theorem shiftRegion_clean (rg : LineRange) (δ : Int) (r : Region)
    (hno : ¬r.Overlaps rg) (hrgle : rg.startLine ≤ rg.endLine) :
    RegionManager.shiftRegion δ rg.endLine r =
      if r.startLine > rg.endLine then
        ⟨r.id, r.startLine + δ, r.endLine + δ⟩
      else r := by
  simp only [Region.Overlaps, not_not] at hno
  unfold RegionManager.shiftRegion
  split
  · rfl
  · split
    · exfalso
      omega
    · rfl

/-- `updateRegionsAfterEdit`, run after overlap removal on a well-behaved
edit: the store stays well-formed and (if it was) pairwise disjoint, and
no region shares a line with the span the paste path is about to flag. -/
theorem updateRegionsAfterEdit_props (rm : RMState) (rg : LineRange)
    (text : List String) (hrg : rg.WF) (htext : text ≠ [])
    (h1 : RegionsWF rm.regions) (h2 : NoOverlap rm.regions rg) :
    RegionsWF (RegionManager.updateRegionsAfterEdit rm rg text).regions ∧
    NoOverlap (RegionManager.updateRegionsAfterEdit rm rg text).regions
      ⟨rg.startLine, rg.startLine + ((text.length - 1 : Nat) : Int)⟩ ∧
    (RegionsDisjoint rm.regions →
      RegionsDisjoint (RegionManager.updateRegionsAfterEdit rm rg text).regions) := by
  obtain ⟨hrg0, hrgle⟩ := hrg
  have hlen : 1 ≤ text.length := List.length_pos.mpr htext
  simp only [RegionManager.updateRegionsAfterEdit]
  split
  · rename_i hδ
    unfold RegionManager.lineDeltaOf at hδ
    refine ⟨h1, ?_, fun h => h⟩
    intro r hr
    have hno := h2 r hr
    simp only [Region.Overlaps, not_not] at hno ⊢
    omega
  · rename_i hδ
    refine ⟨?_, ?_, ?_⟩
    · intro q hq
      rcases List.mem_map.mp hq with ⟨r, hr, rfl⟩
      rw [shiftRegion_clean rg _ r (h2 r hr) hrgle]
      have hw := h1 r hr
      split
      · simp only
        omega
      · exact hw
    · intro q hq
      rcases List.mem_map.mp hq with ⟨r, hr, rfl⟩
      rw [shiftRegion_clean rg _ r (h2 r hr) hrgle]
      have hno := h2 r hr
      simp only [Region.Overlaps, not_not] at hno
      unfold RegionManager.lineDeltaOf
      split <;>
        · simp only [Region.Overlaps, not_not]
          omega
    · intro hd
      unfold RegionsDisjoint at hd ⊢
      simp only
      rw [List.pairwise_map]
      refine hd.imp_of_mem ?_
      intro a b ha hb hab
      rw [shiftRegion_clean rg _ a (h2 a ha) hrgle,
        shiftRegion_clean rg _ b (h2 b hb) hrgle]
      have hnoa := h2 a ha
      have hnob := h2 b hb
      simp only [Region.Overlaps, not_not] at hnoa hnob
      unfold RegionManager.lineDeltaOf
      rcases hab with hab | hab <;>
        split <;> split <;>
          · simp only [Region.Disjoint]
            omega

/-- `createRegions_lineRun` specialised to the strict size test of
`src/changeTracker.ts`. -/
theorem createRegions_lineRun_strict (rm : RMState) (s : Int)
    (k minSize : Nat) :
    ChangeTracker.createRegionsFromLines true rm (lineRun s k) minSize =
      if ((k : Int) + 1 > (minSize : Int)) then
        RegionManager.addRegion rm s (s + k)
      else rm := by
  rw [createRegions_lineRun]
  simp only [if_true]

/-- `createRegions_lineRun` specialised to the non-strict size test of the
later `changeTracker.ts` generation. -/
theorem createRegions_lineRun_ge (rm : RMState) (s : Int)
    (k minSize : Nat) :
    ChangeTracker.createRegionsFromLines false rm (lineRun s k) minSize =
      if ((k : Int) + 1 ≥ (minSize : Int)) then
        RegionManager.addRegion rm s (s + k)
      else rm := by
  rw [createRegions_lineRun]
  simp only [Bool.false_eq_true, if_false]

/-- `endTracking` preserves interval well-formedness of the store. -/
theorem endTracking_WF (cfg : Config) (st : Option TrackingState)
    (rm : RMState) (h : RegionsWF rm.regions) :
    RegionsWF (ChangeTracker.endTracking cfg st rm).2.regions := by
  unfold ChangeTracker.endTracking
  cases st with
  | none => exact h
  | some s =>
    simp only
    split
    · exact h
    · split <;> split <;>
        first
          | exact h
          | exact createRegions_WF true rm s.affectedLines
              cfg.minimumStreamingLines h

/-- One system event preserves interval well-formedness, and every event
except a debounce-timer firing also preserves pairwise disjointness. -/
theorem stepEv_preserves (cfg : Config) (s : Sys) (e : Ev) (hwf : EvWF e)
    (h1 : RegionsWF s.rm.regions) :
    RegionsWF (stepEv cfg s e).rm.regions ∧
    (e ≠ Ev.timerFire → RegionsDisjoint s.rm.regions →
      RegionsDisjoint (stepEv cfg s e).rm.regions) := by
  cases e with
  | change now c =>
    obtain ⟨⟨hrg0, hrgle⟩, htext⟩ := hwf
    obtain ⟨w1, n1, hwithin, d1⟩ :=
      removeLinesGo_props c.range hrgle s.rm.regions s.rm.nextId h1
    obtain ⟨w2, n2, d2⟩ := updateRegionsAfterEdit_props
      (RegionManager.removeLinesFromRegions s.rm c.range).1 c.range c.text
      ⟨hrg0, hrgle⟩ htext w1 n1
    constructor
    · show RegionsWF (ChangeTracker.processOneChange cfg now s.tracking
        (RegionManager.updateRegionsAfterEdit
          (RegionManager.removeLinesFromRegions s.rm c.range).1
          c.range c.text) c).2.regions
      unfold ChangeTracker.processOneChange
      split
      · exact w2
      · split
        · unfold ChangeTracker.handlePaste
          rw [createRegions_lineRun_strict]
          split
          · exact addRegion_WF _ _ _ w2
              (le_add_of_nonneg_right (Int.natCast_nonneg _))
          · exact w2
        · exact w2
    · intro _ hd
      show RegionsDisjoint (ChangeTracker.processOneChange cfg now s.tracking
        (RegionManager.updateRegionsAfterEdit
          (RegionManager.removeLinesFromRegions s.rm c.range).1
          c.range c.text) c).2.regions
      unfold ChangeTracker.processOneChange
      split
      · exact d2 (d1 hd)
      · split
        · unfold ChangeTracker.handlePaste
          rw [createRegions_lineRun_strict]
          split
          · unfold RegionsDisjoint
            refine List.pairwise_append.mpr
              ⟨d2 (d1 hd), List.pairwise_singleton _ _, ?_⟩
            intro a ha b hb
            rcases List.mem_singleton.mp hb with rfl
            have hna := n2 a ha
            simp only [Region.Overlaps, not_not] at hna
            simp only [Region.Disjoint]
            omega
          · exact d2 (d1 hd)
        · exact d2 (d1 hd)
  | timerFire =>
    refine ⟨endTracking_WF cfg s.tracking s.rm h1, ?_⟩
    intro h
    exact absurd rfl h
  | select rg =>
    obtain ⟨hrg0, hrgle⟩ := hwf
    obtain ⟨w1, _, _, d1⟩ :=
      removeLinesGo_props rg hrgle s.rm.regions s.rm.nextId h1
    exact ⟨w1, fun _ hd => d1 hd⟩
  | restore regions =>
    obtain ⟨hw, hd⟩ := hwf
    exact ⟨hw, fun _ _ => hd⟩

/-- The invariant over whole event sequences, by induction. -/
theorem runEvents_preserves (cfg : Config) (evs : List Ev) :
    ∀ s : Sys, (∀ e ∈ evs, EvWF e) → RegionsWF s.rm.regions →
      RegionsWF (runEvents cfg s evs).rm.regions ∧
      ((∀ e ∈ evs, e ≠ Ev.timerFire) → RegionsDisjoint s.rm.regions →
        RegionsDisjoint (runEvents cfg s evs).rm.regions) := by
  induction evs with
  | nil => exact fun s _ h => ⟨h, fun _ hd => hd⟩
  | cons e evs ih =>
    intro s hwf h1
    have he := hwf e (List.mem_cons_self e evs)
    obtain ⟨w, d⟩ := stepEv_preserves cfg s e he h1
    obtain ⟨w', d'⟩ := ih (stepEv cfg s e)
      (fun x hx => hwf x (List.mem_cons_of_mem e hx)) w
    refine ⟨w', ?_⟩
    intro hnf hd
    exact d' (fun x hx => hnf x (List.mem_cons_of_mem e hx))
      (d (hnf e (List.mem_cons_self e evs)) hd)

/-- Running a concatenation of event sequences is running them in turn. -/
theorem runEvents_append (cfg : Config) (s : Sys) (l1 l2 : List Ev) :
    runEvents cfg s (l1 ++ l2) = runEvents cfg (runEvents cfg s l1) l2 := by
  unfold runEvents
  exact List.foldl_append _ _ l1 l2

/-- C1 (amended): along every well-formed event sequence from a freshly
opened document, every region `RegionStore.get` returns satisfies
`startLine ≤ endLine`; and along every such sequence in which the
streaming debounce timer never fires, the returned regions are also
pairwise non-overlapping.  (Unrestricted, the disjointness half of the
claim is false: a debounce window that fires after intervening
region-creating or region-shifting events can add an overlapping region —
see the counterexample.) -/
theorem C1_region_store_invariants (cfg : Config) (evs : List Ev)
    (hwf : ∀ e ∈ evs, EvWF e) :
    RegionsWF (runEvents cfg initSys evs).rm.regions ∧
    ((∀ e ∈ evs, e ≠ Ev.timerFire) →
      RegionsDisjoint (runEvents cfg initSys evs).rm.regions) := by
  obtain ⟨w, d⟩ := runEvents_preserves cfg evs initSys hwf
    (fun r hr => absurd hr (List.not_mem_nil r))
  exact ⟨w, fun h => d h List.Pairwise.nil⟩

/-- Witness for C1: a paste, a dismissal selection and a restore, run
from a fresh document, leave a well-formed pairwise-disjoint store. -/
theorem C1_region_store_invariants_witness :
    RegionsWF (runEvents defaultConfig initSys
      [Ev.change 0 ⟨⟨0, 0⟩, List.replicate 25 "y"⟩, Ev.select ⟨2, 4⟩,
       Ev.restore [⟨9, 40, 45⟩]]).rm.regions ∧
    RegionsDisjoint (runEvents defaultConfig initSys
      [Ev.change 0 ⟨⟨0, 0⟩, List.replicate 25 "y"⟩, Ev.select ⟨2, 4⟩,
       Ev.restore [⟨9, 40, 45⟩]]).rm.regions := by
  have h := C1_region_store_invariants defaultConfig
    [Ev.change 0 ⟨⟨0, 0⟩, List.replicate 25 "y"⟩, Ev.select ⟨2, 4⟩,
     Ev.restore [⟨9, 40, 45⟩]] (by decide)
  exact ⟨h.1, h.2 (by decide)⟩

/-- Counterexample to C1 as stated: twenty-one fast keystrokes on lines
0 to 20 are followed, before their debounce window fires, by a 31-line
paste at line 5 (which creates the region `[5, 35]`); when the window
then fires, the streaming path flags the stale accumulated lines `[0, 20]`
as a second region, and the two returned regions overlap on lines 5 to
20.  Every event of the sequence is well-formed. -/
theorem C1_disjointness_cex :
    (∀ e ∈ (List.range 21).map
        (fun k => Ev.change k ⟨⟨(k : Int), (k : Int)⟩, ["x"]⟩) ++
        [Ev.change 30 ⟨⟨5, 5⟩, List.replicate 31 "x"⟩, Ev.timerFire], EvWF e) ∧
    ¬RegionsDisjoint (runEvents defaultConfig initSys
      ((List.range 21).map (fun k => Ev.change k ⟨⟨(k : Int), (k : Int)⟩, ["x"]⟩) ++
        [Ev.change 30 ⟨⟨5, 5⟩, List.replicate 31 "x"⟩, Ev.timerFire])).rm.regions := by
  constructor
  · decide
  · have hsplit :
        (List.range 21).map (fun k => Ev.change k ⟨⟨(k : Int), (k : Int)⟩, ["x"]⟩) ++
          [Ev.change 30 ⟨⟨5, 5⟩, List.replicate 31 "x"⟩, Ev.timerFire] =
        ((List.range 21).map (fun k => Ev.change k ⟨⟨(k : Int), (k : Int)⟩, ["x"]⟩) ++
          [Ev.change 30 ⟨⟨5, 5⟩, List.replicate 31 "x"⟩]) ++ [Ev.timerFire] := by
      simp
    rw [hsplit, runEvents_append]
    have h1 : runEvents defaultConfig initSys
        ((List.range 21).map (fun k => Ev.change k ⟨⟨(k : Int), (k : Int)⟩, ["x"]⟩) ++
          [Ev.change 30 ⟨⟨5, 5⟩, List.replicate 31 "x"⟩]) =
        ⟨⟨[⟨0, 5, 35⟩], 1⟩,
         some ⟨true, 0, 21,
           [0, 1, 2, 3, 4, 5, 6, 7, 8, 9, 10, 11, 12, 13, 14, 15, 16, 17, 18, 19, 20],
           20, true⟩⟩ := by decide
    rw [h1]
    show ¬RegionsDisjoint (ChangeTracker.endTracking defaultConfig
      (some ⟨true, 0, 21,
        [0, 1, 2, 3, 4, 5, 6, 7, 8, 9, 10, 11, 12, 13, 14, 15, 16, 17, 18, 19, 20],
        20, true⟩) ⟨[⟨0, 5, 35⟩], 1⟩).2.regions
    unfold ChangeTracker.endTracking
    simp only
    rw [if_neg (by simp)]
    rw [if_pos (And.intro (by norm_num [defaultConfig]) (by decide))]
    decide

/-- C5: removing the interior range `[14, 16]` from a region `[10, 20]`
yields exactly the two regions `[10, 13]` and `[17, 20]`: they are
disjoint, each is a well-formed interval, and each carries a fresh id
distinct from the original region's id. -/
theorem C5_interior_split (id nid : Nat) (h : id < nid) :
    (RegionManager.removeLinesFromRegions ⟨[⟨id, 10, 20⟩], nid⟩
        ⟨14, 16⟩).1.regions = [⟨nid, 10, 13⟩, ⟨nid + 1, 17, 20⟩] ∧
    Region.Disjoint ⟨nid, 10, 13⟩ ⟨nid + 1, 17, 20⟩ ∧
    ∀ r ∈ (RegionManager.removeLinesFromRegions ⟨[⟨id, 10, 20⟩], nid⟩
        ⟨14, 16⟩).1.regions,
      r.startLine ≤ r.endLine ∧ r.id ≠ id := by
  have heq : (RegionManager.removeLinesFromRegions ⟨[⟨id, 10, 20⟩], nid⟩
      ⟨14, 16⟩).1.regions = [⟨nid, 10, 13⟩, ⟨nid + 1, 17, 20⟩] := by
    unfold RegionManager.removeLinesFromRegions RegionManager.removeLinesGo
      RegionManager.removeRangeFromRegion
    norm_num
    rfl
  refine ⟨heq, Or.inl (by norm_num), ?_⟩
  rw [heq]
  intro r hr
  rcases List.mem_cons.mp hr with rfl | hr
  · exact ⟨by norm_num, by simp only; omega⟩
  · rcases List.mem_singleton.mp hr with rfl
    exact ⟨by norm_num, by simp only; omega⟩

/-- Witness for C5 at the concrete original id 0 and counter 1. -/
theorem C5_interior_split_witness :
    (RegionManager.removeLinesFromRegions ⟨[⟨0, 10, 20⟩], 1⟩
        ⟨14, 16⟩).1.regions = [⟨1, 10, 13⟩, ⟨2, 17, 20⟩] ∧
    Region.Disjoint ⟨1, 10, 13⟩ ⟨2, 17, 20⟩ ∧
    ∀ r ∈ (RegionManager.removeLinesFromRegions ⟨[⟨0, 10, 20⟩], 1⟩
        ⟨14, 16⟩).1.regions,
      r.startLine ≤ r.endLine ∧ r.id ≠ 0 :=
  C5_interior_split 0 1 (by decide)

/-- Shifting by a zero delta is the identity. -/
theorem shiftRegion_zero (cE : Int) (r : Region) :
    RegionManager.shiftRegion 0 cE r = r := by
  cases r
  unfold RegionManager.shiftRegion
  split
  · simp
  · split
    · simp
    · rfl

/-- C6: after an edit, the store maps every region through the shift
function for the edit's line delta; a region starting strictly after the
edit's end line is translated whole, and a region spanning the edit's end
line has only its end bound adjusted, its start held fixed. -/
theorem C6_shift_after_edit (rm : RMState) (rg : LineRange)
    (text : List String) :
    (RegionManager.updateRegionsAfterEdit rm rg text).regions =
      rm.regions.map (RegionManager.shiftRegion
        (RegionManager.lineDeltaOf rg text) rg.endLine) ∧
    (∀ r : Region, r.startLine > rg.endLine →
      RegionManager.shiftRegion (RegionManager.lineDeltaOf rg text)
          rg.endLine r =
        ⟨r.id, r.startLine + RegionManager.lineDeltaOf rg text,
         r.endLine + RegionManager.lineDeltaOf rg text⟩) ∧
    (∀ r : Region, r.startLine ≤ rg.endLine → r.endLine > rg.endLine →
      RegionManager.shiftRegion (RegionManager.lineDeltaOf rg text)
          rg.endLine r =
        ⟨r.id, r.startLine, r.endLine + RegionManager.lineDeltaOf rg text⟩) := by
  refine ⟨?_, ?_, ?_⟩
  · simp only [RegionManager.updateRegionsAfterEdit]
    split
    · rename_i hδ
      rw [hδ]
      rw [show RegionManager.shiftRegion 0 rg.endLine = id from
        funext (shiftRegion_zero rg.endLine)]
      rw [List.map_id]
    · rfl
  · intro r hr
    unfold RegionManager.shiftRegion
    rw [if_pos hr]
  · intro r hr1 hr2
    unfold RegionManager.shiftRegion
    rw [if_neg (not_lt.mpr hr1), if_pos hr2]

/-- Witness for C6: the region `[10, 20]` with a 3-line insertion at
line 5 becomes `[13, 23]`, keeping its id. -/
theorem C6_shift_after_edit_witness :
    (RegionManager.updateRegionsAfterEdit ⟨[⟨0, 10, 20⟩], 1⟩ ⟨5, 5⟩
        ["a", "b", "c", "d"]).regions = [⟨0, 13, 23⟩] := by
  have h := C6_shift_after_edit ⟨[⟨0, 10, 20⟩], 1⟩ ⟨5, 5⟩ ["a", "b", "c", "d"]
  rw [h.1, List.map_cons, List.map_nil,
    h.2.1 ⟨0, 10, 20⟩ (by norm_num)]
  norm_num [RegionManager.lineDeltaOf]

/-- Counterexample to C9 as stated: shrinking the region `[10, 20]`
(id 0) to its suffix remainder by removing the prefix range `[10, 15]`
leaves a single surviving region `[16, 20]` whose id is the freshly
issued 1, not the original 0. -/
theorem C9_shrink_fresh_id_cex :
    (RegionManager.removeLinesFromRegions ⟨[⟨0, 10, 20⟩], 1⟩
        ⟨10, 15⟩).1.regions = [⟨1, 16, 20⟩] ∧ (1 : Nat) ≠ 0 := by
  decide

/-- C9 (amended): `shiftRegion` never changes a region's id, but every
region surviving a `removeLines` overlap — prefix remainder, suffix
remainder or split piece — carries a fresh id at or above the manager's
counter, hence different from the original id the manager had issued. -/
theorem C9_id_stability (δ cE : Int) (r : Region) (nid : Nat)
    (rg : LineRange) (h : r.id < nid) :
    (RegionManager.shiftRegion δ cE r).id = r.id ∧
    ∀ p ∈ (RegionManager.removeRangeFromRegion nid r rg).2.1,
      nid ≤ p.id ∧ p.id ≠ r.id := by
  constructor
  · unfold RegionManager.shiftRegion
    split
    · rfl
    · split
      · rfl
      · rfl
  · intro p hp
    have hid := (removeRange_pieces nid r rg p hp).2.2.2
    exact ⟨hid, by omega⟩

/-- Witness for C9 at the region `[10, 20]` with id 0 and counter 1:
shifted by 3 the id stays 0; the pieces of removing `[12, 13]` have
ids 1 and 2. -/
theorem C9_id_stability_witness :
    (RegionManager.shiftRegion 3 5 ⟨0, 10, 20⟩).id = 0 ∧
    ∀ p ∈ (RegionManager.removeRangeFromRegion 1 ⟨0, 10, 20⟩
        ⟨12, 13⟩).2.1,
      1 ≤ p.id ∧ p.id ≠ 0 :=
  C9_id_stability 3 5 ⟨0, 10, 20⟩ 1 ⟨12, 13⟩ (by decide)

/-- C10: a change whose inserted text is the empty string (a pure
deletion) is skipped by the classifier: the tracking state is unchanged,
no timer is re-armed, and neither detection path creates a region. -/
theorem C10_pure_deletion_no_op (cfg : Config) (now : Nat)
    (st : Option TrackingState) (rm : RMState) (c : Chg)
    (h : c.text = [""]) :
    ChangeTracker.processOneChange cfg now st rm c = (st, rm) ∧
    ChangeTracker.processChange cfg now st rm [c] = (st, rm) := by
  have h1 : ChangeTracker.processOneChange cfg now st rm c = (st, rm) := by
    unfold ChangeTracker.processOneChange
    rw [if_pos h]
  refine ⟨h1, ?_⟩
  unfold ChangeTracker.processChange
  simp only [List.foldl_cons, List.foldl_nil]
  exact h1

/-- Witness for C10: an empty-text deletion event over lines 3 to 7
leaves a tracking-free state and an empty store untouched. -/
theorem C10_pure_deletion_no_op_witness :
    ChangeTracker.processOneChange defaultConfig 0 none ⟨[], 0⟩
        ⟨⟨3, 7⟩, [""]⟩ = (none, ⟨[], 0⟩) ∧
    ChangeTracker.processChange defaultConfig 0 none ⟨[], 0⟩
        [⟨⟨3, 7⟩, [""]⟩] = (none, ⟨[], 0⟩) :=
  C10_pure_deletion_no_op defaultConfig 0 none ⟨[], 0⟩ ⟨⟨3, 7⟩, [""]⟩ rfl

/-- C2: a single edit whose inserted text spans exactly
`minimumPasteLines` lines is classified as a paste and creates its region
synchronously inside `processChange` (no debounce state is touched, no
timer armed), the region covering exactly the pasted span; an edit
spanning `minimumPasteLines − 1` lines is not routed to the paste path. -/
theorem C2_paste_threshold (cfg : Config) (total : Nat) (now : Nat)
    (st : Option TrackingState) (rm : RMState) (c c2 : Chg)
    (hmin : 1 ≤ cfg.minimumPasteLines)
    (hc : c.text.length = cfg.minimumPasteLines)
    (hc2 : c2.text.length = cfg.minimumPasteLines - 1)
    (hne : c.text ≠ [""]) (hne2 : c2.text ≠ [""]) :
    ChangeTracker.isPasteV2 cfg c = true ∧
    ChangeTracker.processOneChangeV2 cfg now total st rm c none none =
      (st, ChangeTracker.handlePasteV2 cfg total rm c none none) ∧
    (ChangeTracker.handlePasteV2 cfg total rm c none none).regions =
      rm.regions ++ [⟨rm.nextId, c.range.startLine,
        c.range.startLine + ((cfg.minimumPasteLines - 1 : Nat) : Int)⟩] ∧
    ChangeTracker.isPasteV2 cfg c2 = false ∧
    (ChangeTracker.processOneChangeV2 cfg now total st rm c2 none none).2 =
      rm := by
  have hp : ChangeTracker.isPasteV2 cfg c = true := by
    simp [ChangeTracker.isPasteV2, hc]
  have hp2 : ChangeTracker.isPasteV2 cfg c2 = false := by
    simp only [ChangeTracker.isPasteV2, hc2, decide_eq_false_iff_not, not_le]
    omega
  refine ⟨hp, ?_, ?_, hp2, ?_⟩
  · unfold ChangeTracker.processOneChangeV2
    rw [if_neg hne, if_pos hp]
  · unfold ChangeTracker.handlePasteV2
    simp only
    rw [hc, createRegions_lineRun_ge, if_pos (by omega)]
    rfl
  · unfold ChangeTracker.processOneChangeV2
    rw [if_neg hne2, if_neg (by simp [hp2])]

/-- Witness for C2 at the defaults: a 20-line paste at line 3 creates the
region `[3, 22]`; a 19-line insertion is not a paste. -/
theorem C2_paste_threshold_witness :
    (ChangeTracker.handlePasteV2 defaultConfig 100 ⟨[], 0⟩
        ⟨⟨3, 3⟩, List.replicate 20 "x"⟩ none none).regions = [⟨0, 3, 22⟩] ∧
    ChangeTracker.isPasteV2 defaultConfig
      ⟨⟨3, 3⟩, List.replicate 19 "x"⟩ = false := by
  have h := C2_paste_threshold defaultConfig 100 0 none ⟨[], 0⟩
    ⟨⟨3, 3⟩, List.replicate 20 "x"⟩ ⟨⟨3, 3⟩, List.replicate 19 "x"⟩
    (by decide) (by decide) (by decide) (by decide) (by decide)
  refine ⟨?_, h.2.2.2.1⟩
  rw [h.2.2.1]
  decide

/-- The typing-speed test of `endTracking`, restated without division:
for a nonnegative threshold, the computed speed (0 when the duration is
not positive) exceeds the threshold exactly when the duration is positive
and characters-times-1000 exceeds threshold-times-duration-in-ms. -/
theorem speed_gt_iff (a b c t : ℚ) (ht : 0 ≤ t) :
    ((if (b - a) / 1000 > 0 then c / ((b - a) / 1000) else 0) > t ↔
      (a < b ∧ c * 1000 > t * (b - a))) := by
  by_cases hab : a < b
  · have hd : (b - a) / 1000 > 0 := div_pos (by linarith) (by norm_num)
    rw [if_pos hd]
    rw [div_div_eq_mul_div]
    rw [gt_iff_lt, lt_div_iff₀ (by linarith)]
    constructor
    · intro hlt
      exact ⟨hab, by linarith⟩
    · rintro ⟨_, hgt⟩
      linarith
  · have hd : ¬((b - a) / 1000 > 0) := by
      simp only [gt_iff_lt, not_lt]
      exact div_nonpos_iff.mpr (Or.inr ⟨by linarith, by norm_num⟩)
    rw [if_neg hd]
    constructor
    · intro h0
      linarith
    · rintro ⟨hab', _⟩
      exact absurd hab' hab

/-- C3 (amended): when the debounce window closes on a tracked state, the
affected lines are handed to region creation exactly when the elapsed
duration is positive, the speed (characters per second) strictly exceeds
`typingSpeedThreshold`, and the number of distinct affected lines strictly
exceeds `minimumStreamingLines`; a window whose elapsed duration is zero
(or negative) never emits, because the code takes its speed to be 0, not
infinity. -/
theorem C3_streaming_emit_iff (cfg : Config) (st : TrackingState)
    (rm : RMState) (hth : 0 ≤ cfg.typingSpeedThreshold)
    (htr : st.isTracking = true) :
    ((ChangeTracker.endTracking cfg (some st) rm).2 =
      if st.startTime < st.lastChangeTime ∧
          (st.totalCharacters : ℚ) * 1000 >
            cfg.typingSpeedThreshold *
              ((st.lastChangeTime : ℚ) - (st.startTime : ℚ)) ∧
          st.affectedLines.length > cfg.minimumStreamingLines then
        ChangeTracker.createRegionsFromLines true rm st.affectedLines
          cfg.minimumStreamingLines
      else rm) ∧
    (st.lastChangeTime ≤ st.startTime →
      (ChangeTracker.endTracking cfg (some st) rm).2 = rm) := by
  have hmain : (ChangeTracker.endTracking cfg (some st) rm).2 =
      if st.startTime < st.lastChangeTime ∧
          (st.totalCharacters : ℚ) * 1000 >
            cfg.typingSpeedThreshold *
              ((st.lastChangeTime : ℚ) - (st.startTime : ℚ)) ∧
          st.affectedLines.length > cfg.minimumStreamingLines then
        ChangeTracker.createRegionsFromLines true rm st.affectedLines
          cfg.minimumStreamingLines
      else rm := by
    unfold ChangeTracker.endTracking
    simp only
    rw [if_neg (by simp [htr])]
    simp only
    refine if_congr ?_ rfl rfl
    have hsp := speed_gt_iff (st.startTime : ℚ) (st.lastChangeTime : ℚ)
      (st.totalCharacters : ℚ) cfg.typingSpeedThreshold hth
    constructor
    · rintro ⟨h1, h2⟩
      obtain ⟨hab, hx⟩ := hsp.mp h1
      exact ⟨by exact_mod_cast hab, hx, h2⟩
    · rintro ⟨hab, hx, h2⟩
      exact ⟨hsp.mpr ⟨by exact_mod_cast hab, hx⟩, h2⟩
  refine ⟨hmain, ?_⟩
  intro hle
  rw [hmain, if_neg]
  rintro ⟨h1, -⟩
  omega

/-- Witness for C3: 210 characters over a 20 ms window across lines 0 to
20 (speed 10500 chars/s > 110, 21 lines > 20) creates the region
`[0, 20]`. -/
theorem C3_streaming_emit_iff_witness :
    (ChangeTracker.endTracking defaultConfig
        (some ⟨true, 0, 210, lineRun 0 20, 20, true⟩) ⟨[], 0⟩).2.regions =
      [⟨0, 0, 20⟩] := by
  have h := C3_streaming_emit_iff defaultConfig
    ⟨true, 0, 210, lineRun 0 20, 20, true⟩ ⟨[], 0⟩
    (by norm_num [defaultConfig]) rfl
  have hcond : (0 : Nat) < 20 ∧
      ((210 : Nat) : ℚ) * 1000 >
        defaultConfig.typingSpeedThreshold * (((20 : Nat) : ℚ) - ((0 : Nat) : ℚ)) ∧
      (lineRun 0 20).length > defaultConfig.minimumStreamingLines :=
    ⟨by norm_num, by norm_num [defaultConfig], by decide⟩
  rw [h.1, if_pos hcond]
  decide

/-- Counterexample to C3 as stated: a window of zero elapsed duration
holding 500 characters across 21 distinct lines (21 > 20 =
`minimumStreamingLines`) emits nothing — the code computes speed 0 for a
zero duration instead of treating it as infinite speed. -/
theorem C3_zero_duration_cex :
    (ChangeTracker.endTracking defaultConfig
        (some ⟨true, 50, 500, lineRun 0 20, 50, true⟩) ⟨[], 0⟩).2 =
      ⟨[], 0⟩ ∧
    (lineRun 0 20).length > defaultConfig.minimumStreamingLines := by
  constructor
  · unfold ChangeTracker.endTracking
    simp only
    rw [if_neg (by simp)]
    rw [if_neg (by norm_num [defaultConfig])]
  · decide

/-- A guarded accumulation loop that always skips adds nothing. -/
theorem foldl_guardedAdd_all {α β : Type} [DecidableEq β] (p : α → Prop)
    [DecidablePred p] (f : α → β) (l : List α) (init : List β)
    (h : ∀ a ∈ l, p a) :
    l.foldl (fun s a => if p a then s else setAdd s (f a)) init = init := by
  induction l generalizing init with
  | nil => rfl
  | cons a l ih =>
    simp only [List.foldl_cons, if_pos (h a (List.mem_cons_self a l))]
    exact ih init (fun b hb => h b (List.mem_cons_of_mem a hb))

/-- With no regions, every line of the old document is reviewed, so every
contextual key of the document is in the reviewed-key set. -/
theorem reviewedKeys_complete (lines : List String) (i : Nat)
    (hi : i < lines.length) :
    getContextualKey lines i ∈ ChangeTracker.reviewedContentKeys lines [] := by
  unfold ChangeTracker.reviewedContentKeys
  exact (mem_foldl_guardedAdd _ _ _ _ _).mpr
    (Or.inr ⟨i, List.mem_range.mpr hi, by simp, rfl⟩)

/-- A paste whose line count equals the resulting document's line count
passes the 80% full-file coverage test. -/
theorem isFullFilePaste_self (rg : LineRange) (lines : List String)
    (h : lines ≠ []) :
    ChangeTracker.isFullFilePaste lines.length ⟨rg, lines⟩ = true := by
  unfold ChangeTracker.isFullFilePaste
  have hlen : lines.length ≠ 0 := by simpa using h
  simp only [hlen, if_false, decide_eq_true_eq]
  rw [div_self (by exact_mod_cast hlen)]
  norm_num

/-- C4: pasting content identical to a fully reviewed document (zero
existing regions) over itself creates zero regions; membership in the
reviewed-key set is exactly having the contextual key of some old line
outside every old region; and a pasted line is flagged exactly when its
contextual key is absent from the reviewed-key set. -/
theorem C4_fingerprint_roundtrip :
    (∀ (cfg : Config) (rm : RMState) (lines : List String) (s se : Int),
      lines ≠ [] →
      ChangeTracker.handlePasteV2 cfg lines.length rm ⟨⟨s, se⟩, lines⟩
        (some lines) (some []) = rm) ∧
    (∀ (old : List String) (regs : List Region) (k : String),
      k ∈ ChangeTracker.reviewedContentKeys old regs ↔
        ∃ i, i < old.length ∧
          (∀ r ∈ regs, ¬((i : Int) ≥ r.startLine ∧ (i : Int) ≤ r.endLine)) ∧
          k = getContextualKey old i) ∧
    (∀ (reviewed newLines : List String) (s x : Int),
      x ∈ ChangeTracker.linesToHighlight reviewed newLines s ↔
        ∃ i, i < newLines.length ∧
          getContextualKey newLines i ∉ reviewed ∧ x = s + (i : Int)) := by
  refine ⟨?_, ?_, ?_⟩
  · intro cfg rm lines s se hne
    unfold ChangeTracker.handlePasteV2
    simp only
    rw [if_pos (by
      rw [Bool.and_eq_true]
      exact ⟨rfl, isFullFilePaste_self ⟨s, se⟩ lines hne⟩)]
    have hz : ChangeTracker.linesToHighlight
        (ChangeTracker.reviewedContentKeys lines []) lines s = [] := by
      unfold ChangeTracker.linesToHighlight
      apply foldl_guardedAdd_all
      intro i hi
      exact reviewedKeys_complete lines i (List.mem_range.mp hi)
    rw [hz]
    simp
  · intro old regs k
    unfold ChangeTracker.reviewedContentKeys
    rw [mem_foldl_guardedAdd]
    simp only [List.not_mem_nil, false_or, List.mem_range,
      List.any_eq_true, Bool.and_eq_true, decide_eq_true_eq, not_exists,
      not_and, ge_iff_le]
  · intro reviewed newLines s x
    unfold ChangeTracker.linesToHighlight
    rw [mem_foldl_guardedAdd]
    simp only [List.not_mem_nil, false_or, List.mem_range]

/-- Witness for C4: pasting `["foo", "bar", "baz"]` over the identical
fully reviewed three-line document leaves the store unchanged; the
reviewed-key and flagged-line characterizations at line 1 of that
document. -/
theorem C4_fingerprint_roundtrip_witness :
    ChangeTracker.handlePasteV2 defaultConfig 3 ⟨[], 5⟩
      ⟨⟨0, 0⟩, ["foo", "bar", "baz"]⟩
      (some ["foo", "bar", "baz"]) (some []) = ⟨[], 5⟩ ∧
    (getContextualKey ["foo", "bar", "baz"] 1 ∈
      ChangeTracker.reviewedContentKeys ["foo", "bar", "baz"] [] ↔
      ∃ i : Nat, i < (["foo", "bar", "baz"] : List String).length ∧
        (∀ r ∈ ([] : List Region),
          ¬((i : Int) ≥ r.startLine ∧ (i : Int) ≤ r.endLine)) ∧
        getContextualKey ["foo", "bar", "baz"] 1 =
          getContextualKey ["foo", "bar", "baz"] i) := by
  have h := C4_fingerprint_roundtrip
  exact ⟨h.1 defaultConfig ⟨[], 5⟩ ["foo", "bar", "baz"] 0 0 (by decide),
    h.2.1 ["foo", "bar", "baz"] [] (getContextualKey ["foo", "bar", "baz"] 1)⟩

/-- C7: opening a document that has a non-empty saved manifest entry
restores the saved regions verbatim when the digest of the current
content equals the stored digest, and otherwise discards the stored
regions (the document's region set becomes empty) and schedules an
immediate save of the now-empty state; both outcomes are ordinary return
values of the total handler — no fault is raised. -/
theorem C7_document_open_gate (cf : String → String) (m : Manifest)
    (path content : String) (rm : RMState) (entry : ManifestEntry)
    (hfind : m.files.find? (fun f => f.documentPath == path) = some entry)
    (hne : entry.regions ≠ []) :
    (cf content = entry.checksum →
      handleDocumentOpen cf m path content rm =
        ({ rm with regions := entry.regions }, false)) ∧
    (cf content ≠ entry.checksum →
      handleDocumentOpen cf m path content rm =
        ({ rm with regions := [] }, true)) := by
  have hget : SaveManager.getRegions m path = entry.regions := by
    unfold SaveManager.getRegions
    rw [hfind]
  constructor
  · intro hceq
    unfold handleDocumentOpen
    rw [hget]
    rw [if_neg (by simp only [List.isEmpty_iff]; exact hne)]
    rw [if_pos (by
      unfold SaveManager.hasMatchingChecksum
      rw [hfind]
      simp [hceq])]
    rfl
  · intro hcne
    unfold handleDocumentOpen
    rw [hget]
    rw [if_neg (by simp only [List.isEmpty_iff]; exact hne)]
    rw [if_neg (by
      unfold SaveManager.hasMatchingChecksum
      rw [hfind]
      simp only [decide_eq_true_eq]
      exact fun hc => hcne hc.symm)]
    rfl

/-- Witness for C7: matching digest restores the saved region; a changed
digest clears the store and schedules an immediate save. -/
theorem C7_document_open_gate_witness :
    handleDocumentOpen (fun s => s) ⟨[⟨"a.ts", "DIGEST", [⟨0, 1, 2⟩]⟩]⟩
      "a.ts" "DIGEST" ⟨[], 0⟩ = (⟨[⟨0, 1, 2⟩], 0⟩, false) ∧
    handleDocumentOpen (fun s => s) ⟨[⟨"a.ts", "DIGEST", [⟨0, 1, 2⟩]⟩]⟩
      "a.ts" "changed" ⟨[], 0⟩ = (⟨[], 0⟩, true) := by
  have h1 := C7_document_open_gate (fun s => s)
    ⟨[⟨"a.ts", "DIGEST", [⟨0, 1, 2⟩]⟩]⟩ "a.ts" "DIGEST" ⟨[], 0⟩
    ⟨"a.ts", "DIGEST", [⟨0, 1, 2⟩]⟩ (by decide) (by decide)
  have h2 := C7_document_open_gate (fun s => s)
    ⟨[⟨"a.ts", "DIGEST", [⟨0, 1, 2⟩]⟩]⟩ "a.ts" "changed" ⟨[], 0⟩
    ⟨"a.ts", "DIGEST", [⟨0, 1, 2⟩]⟩ (by decide) (by decide)
  exact ⟨h1.1 rfl, h2.2 (by decide)⟩

/-- C8: saving with an empty region set removes the manifest entry for
the path entirely (no entry with an empty list is kept); saving a
non-empty set replaces the entry with the current digest and regions. -/
theorem C8_save_manifest_entry (cf : String → String) (m : Manifest)
    (path content : String) (regions : List Region) :
    ((SaveManager.saveFileRegions cf m path true content []).files.find?
        (fun f => f.documentPath == path) = none) ∧
    (regions ≠ [] →
      (SaveManager.saveFileRegions cf m path true content
          regions).files.find? (fun f => f.documentPath == path) =
        some ⟨path, cf content, regions⟩) := by
  have hnone : ∀ l : List ManifestEntry,
      (l.filter (fun f => f.documentPath ≠ path)).find?
        (fun f => f.documentPath == path) = none := by
    intro l
    rw [List.find?_eq_none]
    intro x hx
    have hmem := List.mem_filter.mp hx
    simp only [decide_eq_true_eq] at hmem
    simp [hmem.2]
  constructor
  · unfold SaveManager.saveFileRegions
    simp only [Bool.not_true, Bool.false_eq_true, if_false,
      List.length_nil, gt_iff_lt, lt_irrefl, if_false]
    exact hnone m.files
  · intro hne
    unfold SaveManager.saveFileRegions
    simp only [Bool.not_true, Bool.false_eq_true, if_false]
    rw [if_pos (by simpa [List.length_pos] using hne)]
    rw [List.find?_append, hnone m.files]
    simp

/-- Witness for C8 with one unrelated entry in the manifest: the empty
save leaves no entry for the path; the non-empty save stores digest and
regions. -/
theorem C8_save_manifest_entry_witness :
    ((SaveManager.saveFileRegions (fun s => s) ⟨[⟨"b.ts", "X", [⟨1, 3, 4⟩]⟩]⟩
        "a.ts" true "body" []).files.find?
        (fun f => f.documentPath == "a.ts") = none) ∧
    (SaveManager.saveFileRegions (fun s => s) ⟨[⟨"b.ts", "X", [⟨1, 3, 4⟩]⟩]⟩
        "a.ts" true "body" [⟨0, 1, 2⟩]).files.find?
        (fun f => f.documentPath == "a.ts") =
      some ⟨"a.ts", "body", [⟨0, 1, 2⟩]⟩ := by
  have h := C8_save_manifest_entry (fun s => s)
    ⟨[⟨"b.ts", "X", [⟨1, 3, 4⟩]⟩]⟩ "a.ts" "body" [⟨0, 1, 2⟩]
  exact ⟨h.1, h.2 (by decide)⟩
